import Mathlib

/-!
Verification of the frida/releng release-engineering core against its
natural-language specification.

The Python sources under scrutiny are `machine_spec.py`, `deps.py` and
`env.py`.  Pure functions are translated directly; the effectful `sync`
pipeline is embedded as a function over an explicit input state that
records the observable filesystem facts it reads, returning the result
state together with the ordered list of effects it performs.

Python string primitives (`split`, `strip`, `replace`, `startswith`,
`endswith`, slicing) are modelled by executable functions over `List Char`
so that every definition evaluates inside the kernel.
-/

/-- `leads p l` holds when the list `p` is an initial run of `l`
(executable equivalent of list-prefix, used to model Python's
`startswith`/`endswith`). -/
def leads : List Char → List Char → Bool
  | [], _ => true
  | _ :: _, [] => false
  | a :: as, b :: bs => a == b && leads as bs

/-- Models Python `s.startswith(t)`. -/
def strStarts (s t : String) : Bool :=
  leads t.data s.data

/-- Models Python `s.endswith(t)`. -/
def strEnds (s t : String) : Bool :=
  leads t.data.reverse s.data.reverse

/-- Models the Python slice `s[:-n]` for `1 ≤ n ≤ len(s)` (drops the last
`n` characters). -/
def strDropLast (s : String) (n : Nat) : String :=
  String.mk (s.data.take (s.data.length - n))

/-- The whitespace characters stripped by Python's `str.strip()`
(restricted to the ASCII range; the wider Unicode space characters play
no role in the properties below, which use this predicate on both the
code side and the spec side). -/
def isPySpace (c : Char) : Bool :=
  c == ' ' || c == '\t' || c == '\n' || c == '\r' || c == '\x0b' || c == '\x0c'

/-- Models Python `s.strip()`. -/
def pyStrip (s : String) : String :=
  String.mk (((s.data.dropWhile isPySpace).reverse.dropWhile isPySpace).reverse)

/-- Models Python `s.split("-")`: splits at every dash, keeping empty
pieces.  Always returns at least one piece. -/
def splitCharsOnDash : List Char → List (List Char)
  | [] => [[]]
  | c :: rest =>
    match splitCharsOnDash rest with
    | [] => [[c]]
    | h :: t => if c = '-' then [] :: h :: t else (c :: h) :: t

/-- Models Python `raw.split("-")` at the `String` level. -/
def splitDash (s : String) : List String :=
  (splitCharsOnDash s.data).map String.mk

/-- Models Python `"-".join(parts)`. -/
def joinDash : List String → String
  | [] => ""
  | [p] => p
  | p :: rest => p ++ "-" ++ joinDash rest

/-- One pass of Python `s.replace(pat, repl)` over the character list,
left to right, replacing every non-overlapping occurrence.  The fuel
argument bounds the number of steps; `fuel ≥ length of the list` never
exhausts (each step consumes at least one character and one fuel). -/
def substAux (pat repl : List Char) : Nat → List Char → List Char
  | _, [] => []
  | 0, l => l
  | fuel + 1, c :: rest =>
    if leads pat (c :: rest) then
      repl ++ substAux pat repl fuel (rest.drop (pat.length - 1))
    else
      c :: substAux pat repl fuel rest

/-- Models Python `s.replace(pat, repl)` for a non-empty pattern. -/
def pyReplace (s pat repl : String) : String :=
  String.mk (substAux pat.data repl.data s.data.length s.data)

/-! ## MachineSpec (machine_spec.py) -/

/-- The `MachineSpec` dataclass of `machine_spec.py`. -/
structure MachineSpec where
  os : String
  arch : String
  config : Option String
  triplet : Option String
deriving DecidableEq, Repr

/-- `MachineSpec.identifier`: `os-arch` plus `-config` when a config is
present. -/
def MachineSpec.identifier (m : MachineSpec) : String :=
  joinDash ([m.os, m.arch] ++ (match m.config with | some c => [c] | none => []))

/-- `MachineSpec.os_dash_arch`. -/
def MachineSpec.os_dash_arch (m : MachineSpec) : String :=
  m.os ++ "-" ++ m.arch

/-- Word characters as matched by `\w` in the source regex (ASCII
range; both sides of every statement below use this same predicate). -/
def isWordChar (c : Char) : Bool :=
  c.isAlphanum || c == '_'

/-- The anchored regex `TARGET_TRIPLET_ARCH_PATTERN` of
`machine_spec.py`:
`^(i.86|x86_64|arm\w*|aarch64(_be)?|mips\w*|powerpc|s390x)$`
(`.` matches any character except a newline). -/
def TARGET_TRIPLET_ARCH_PATTERN (s : String) : Bool :=
  (match s.data with
   | ['i', c, '8', '6'] => c != '\n'
   | _ => false)
  || s == "x86_64"
  || (match s.data with
      | 'a' :: 'r' :: 'm' :: rest => rest.all isWordChar
      | _ => false)
  || s == "aarch64" || s == "aarch64_be"
  || (match s.data with
      | 'm' :: 'i' :: 'p' :: 's' :: rest => rest.all isWordChar
      | _ => false)
  || s == "powerpc" || s == "s390x"

/-- The fallback branch of `MachineSpec.parse`:
`os, arch, *rest = tokens` with `assert len(rest) == 1` when `rest` is
non-empty.  `none` models the `ValueError` (one token) and the
`AssertionError` (four or more tokens). -/
def parsePlain : List String → Option MachineSpec
  | [os, arch] => some ⟨os, arch, none, none⟩
  | [os, arch, config] => some ⟨os, arch, some config, none⟩
  | _ => none

/-- The triplet branch of `MachineSpec.parse`, entered when the raw spec
has 3 or 4 dash-separated tokens and the first token matches
`TARGET_TRIPLET_ARCH_PATTERN`. -/
def parseTriplet (raw_spec : String) (tokens : List String) : MachineSpec :=
  let arch0 := tokens.headD ""
  let kernel := tokens.dropLast.getLastD ""
  let system := tokens.getLastD ""
  let os :=
    if kernel == "w64" then "windows"
    else if kernel == "nto" then "qnx"
    else kernel
  let arch1 :=
    if arch0.data.headD ' ' == 'i' then "x86"
    else if arch0 == "arm" then
      (if strEnds system "eabihf" then "armhf"
       else if os == "qnx" && strEnds system "eabi" then "armeabi"
       else "arm")
    else if arch0 == "armeb" then "armbe8"
    else if arch0 == "aarch64" then "arm64"
    else if arch0 == "aarch64_be" then "arm64be"
    else arch0
  let arch := if strEnds system "_ilp32" then arch1 ++ "ilp32" else arch1
  let config :=
    if strStarts system "musl" then some "musl"
    else if kernel == "w64" then some "mingw"
    else none
  ⟨os, arch, config, some raw_spec⟩

/-- `MachineSpec.parse` of `machine_spec.py`.  `none` models an
exception escaping the method. -/
def MachineSpec.parse (raw_spec : String) : Option MachineSpec :=
  let tokens := splitDash raw_spec
  if tokens.length = 3 ∨ tokens.length = 4 then
    if TARGET_TRIPLET_ARCH_PATTERN (tokens.headD "") then
      some (parseTriplet raw_spec tokens)
    else parsePlain tokens
  else parsePlain tokens

/-- `MachineSpec.pointer_size`. -/
def MachineSpec.pointer_size (m : MachineSpec) : Nat :=
  if m.arch = "x86_64" ∨ m.arch = "s390x" then 8
  else if (strStarts m.arch "arm64" && !strEnds m.arch "ilp32")
          || strStarts m.arch "mips64" then 8
  else 4

/-- `MachineSpec.maybe_adapt_to_host`. -/
def MachineSpec.maybe_adapt_to_host (m host_machine : MachineSpec) : MachineSpec :=
  if m.identifier = host_machine.identifier ∧ host_machine.triplet ≠ none then
    host_machine
  else if m.os = "windows" then
    if host_machine.arch = "x86_64" ∨ host_machine.arch = "x86" then host_machine
    else if m.arch = host_machine.arch then host_machine
    else m
  else m

/-! ## Bundles and bundle parameters (deps.py) -/

/-- The `Bundle` enum of `deps.py`. -/
inductive Bundle
  | TOOLCHAIN
  | SDK
deriving DecidableEq, Repr

/-- `bundle.name.lower()` for the `Bundle` enum. -/
def Bundle.lowerName : Bundle → String
  | .TOOLCHAIN => "toolchain"
  | .SDK => "sdk"

/-- The `SourceState` enum of `deps.py`. -/
inductive SourceState
  | PRISTINE
  | MODIFIED
deriving DecidableEq, Repr

/-- `compute_bundle_parameters` of `deps.py`: returns `(url, filename)`.
`BUNDLE_URL = "https://build.frida.re/deps/{version}/{filename}"`. -/
def compute_bundle_parameters (bundle : Bundle) (machine : MachineSpec)
    (version : String) : String × String :=
  let os_arch_config :=
    if bundle = .TOOLCHAIN ∧ machine.os = "windows" then
      if machine.arch = "x86" ∨ machine.arch = "x86_64" then "windows-x86"
      else machine.os_dash_arch
    else machine.identifier
  let filename := bundle.lowerName ++ "-" ++ os_arch_config ++ ".tar.xz"
  let url := "https://build.frida.re/deps/" ++ version ++ "/" ++ filename
  (url, filename)

/-! ## The sync pipeline (deps.py, `sync`)

`sync` is embedded over an explicit input state recording the facts the
code reads from the world, and returns the `SourceState` result, the
ordered list of effects performed, and — when the extraction path runs —
the resulting contents of `location`.  The staging directory mechanics
(extract into `_<name>`, rewrite templates, atomically rename onto
`location`) are collapsed into the final contents, faithfully to the
per-file transformation the code applies. -/

/-- The facts `sync` reads from its environment: whether `location`
exists, the readable contents of `location / "VERSION.txt"` (`none`
models a missing or unreadable file, whose read raises and is swallowed
by the bare `except`), whether `location.parent / filename` exists, the
file tree contained in the archive (name and UTF-8 contents per file),
and `location.as_posix()`. -/
structure SyncInput where
  locationExists : Bool
  versionTxt : Option String
  localBundleExists : Bool
  archiveFiles : List (String × String)
  rawLocation : String
deriving Repr

/-- Observable effects of `sync`, in order of occurrence:
`rmtreeLocation` is `shutil.rmtree(location)`, `deployLocal` reuses the
staged archive next to `location`, `downloadBundle` is the
`urllib.request.urlopen` network fetch, `extractArchive` is the
`tarfile` extraction into the staging directory. -/
inductive SyncEvent
  | rmtreeLocation
  | deployLocal
  | downloadBundle
  | extractArchive
deriving DecidableEq, Repr, BEq

/-- Result of a successful `sync` run: the returned `SourceState`, the
effects performed, and `some` final contents of `location` when the
extraction path ran (`none`: the early `Pristine` return left
`location` untouched). -/
structure SyncResult where
  state : SourceState
  events : List SyncEvent
  final : Option (List (String × String))
deriving Repr

/-- The template rewrite of `sync` (deps.py lines 210-217): every file
whose name ends in `.frida.in` has each occurrence of
`@FRIDA_TOOLROOT@` replaced by `location.as_posix()` and is renamed
with the 9-character suffix stripped; other files pass through. -/
def processTemplates (rawLocation : String)
    (files : List (String × String)) : List (String × String) :=
  files.map fun f =>
    if strEnds f.1 ".frida.in" then
      (strDropLast f.1 9, pyReplace f.2 "@FRIDA_TOOLROOT@" rawLocation)
    else f

/-- The tail of `sync` after the version gate: obtain the archive
(reusing a local bundle or downloading), extract it, rewrite templates,
and move the staging tree onto `location`. -/
def syncExtract (inp : SyncInput) (evs : List SyncEvent)
    (st : SourceState) : SyncResult :=
  let fetch :=
    if inp.localBundleExists then SyncEvent.deployLocal
    else SyncEvent.downloadBundle
  ⟨st, evs ++ [fetch, SyncEvent.extractArchive],
   some (processTemplates inp.rawLocation inp.archiveFiles)⟩

/-- `sync` of `deps.py` with the effective version `version` (the code
substitutes `deps_version` when called with `None`).  The version gate:
when `location` exists and holds a readable `VERSION.txt` whose
stripped contents equal `version`, return `Pristine` immediately;
otherwise an existing `location` is deleted and the run is `Modified`. -/
def sync (version : String) (inp : SyncInput) : SyncResult :=
  if inp.locationExists then
    match inp.versionTxt with
    | some cached =>
      if pyStrip cached == version then ⟨.PRISTINE, [], none⟩
      else syncExtract inp [SyncEvent.rmtreeLocation] .MODIFIED
    | none => syncExtract inp [SyncEvent.rmtreeLocation] .MODIFIED
  else syncExtract inp [] .PRISTINE

/-! ## Exe wrapper selection (env.py) -/

/-- Python `MachineSpec.__eq__` compares on `identifier`. -/
def machineEqPy (a b : MachineSpec) : Bool :=
  a.identifier == b.identifier

/-- `needs_exe_wrapper` of `env.py`.  `environ` models the process
environment as a partial map; `environ.get(k, "no")` is
`(environ k).getD "no"`. -/
def needs_exe_wrapper (machine build_machine : MachineSpec)
    (environ : String → Option String) : Bool :=
  if (environ "FRIDA_CAN_RUN_HOST_BINARIES").getD "no" == "yes" then false
  else !machineEqPy machine build_machine

/-- The `QEMU_ARCHS` table of `env.py`. -/
def QEMU_ARCHS : List (String × String) :=
  [("armeabi", "arm"), ("armhf", "arm"), ("armbe8", "armeb"), ("arm64", "aarch64")]

/-- `"qemu-" + QEMU_ARCHS.get(machine.arch, machine.arch)`. -/
def qemuFlavor (machine : MachineSpec) : String :=
  "qemu-" ++ (QEMU_ARCHS.lookup machine.arch).getD machine.arch

/-- `find_exe_wrapper` of `env.py`.  `which` models
`shutil.which`; `.error ()` models raising `QEMUNotFoundError`. -/
def find_exe_wrapper (machine : MachineSpec)
    (environ which : String → Option String) :
    Except Unit (Option (List String)) :=
  match environ "FRIDA_QEMU_SYSROOT" with
  | none => .ok none
  | some qemu_sysroot =>
    match which (qemuFlavor machine) with
    | none => .error ()
    | some qemu_binary => .ok (some [qemu_binary, "-L", qemu_sysroot])

/-! ## Dependency records and the topological resolver (deps.py) -/

/-- The `DependencySpec` dataclass of `deps.py`.  The Python field is
annotated `for_machine: str = "host"`, but `parse_dependency` can pass
it `None`, so the embedded field is an `Option`. -/
structure DependencySpec where
  identifier : String
  for_machine : Option String
  when : Option String
deriving DecidableEq, Repr

/-- A dependency entry of the deps document as handed to
`parse_dependency`: either a plain string or a record, whose
`for_machine` / `when` keys may be absent (`v.get` then returns
`None`). -/
inductive DepInput
  | str (s : String)
  | record (id : String) (for_machine : Option String) (when : Option String)
deriving DecidableEq, Repr

/-- `parse_dependency` of `deps.py`: `DependencySpec(v)` for a string
(the dataclass default `"host"` fills `for_machine`), and
`DependencySpec(v["id"], v.get("for_machine"), v.get("when"))` for a
record. -/
def parse_dependency : DepInput → DependencySpec
  | .str s => ⟨s, some "host", none⟩
  | .record id fm w => ⟨id, fm, w⟩

/-- The `PackageSpec` dataclass of `deps.py` (fields used by the
resolver plus the remaining record fields). -/
structure PackageSpec where
  identifier : String
  name : String
  version : String
  url : String
  options : List String
  dependencies : List DependencySpec
  scope : Option String
  when : Option String
deriving Repr

/-- The graph handed to `graphlib.TopologicalSorter`:
`{pkg.identifier: {dep.identifier for dep in pkg.dependencies} for pkg in packages}`. -/
def depsGraph (packages : List PackageSpec) : List (String × List String) :=
  packages.map fun p => (p.identifier, p.dependencies.map (·.identifier))

/-- Python dict lookup over the association list built by a dict
comprehension: a later binding for the same key wins. -/
def dictGet (g : List (String × List String)) (n : String) :
    Option (List String) :=
  (g.reverse.find? fun e => e.1 == n).map (·.2)

/-- The predecessors (dependencies) of a node: the dict entry when the
node is a key, `[]` for nodes appearing only as someone's dependency
(graphlib gives those no predecessors). -/
def predsOf (g : List (String × List String)) (n : String) : List String :=
  (dictGet g n).getD []

/-- All nodes of the graph: the keys together with every mentioned
dependency, deduplicated. -/
def topoNodes (g : List (String × List String)) : List String :=
  (g.map Prod.fst ++ (g.map Prod.snd).flatten).dedup

/-- The nodes of `remaining` all of whose predecessors have already
been emitted: the next batch yielded by the sorter. -/
def readyNodes (g : List (String × List String))
    (emitted remaining : List String) : List String :=
  remaining.filter fun n => (predsOf g n).all fun d => emitted.contains d

/-- One round of Kahn's algorithm, modelling
`graphlib.TopologicalSorter.static_order` from the Python library
documentation: repeatedly emit every node all of whose predecessors
have been emitted; if no node is ready while some remain, the graph has
a cycle and `CycleError` is raised (`.error ()`).  The fuel starts at
the node count and never exhausts before the remaining list empties. -/
def topoLoop (g : List (String × List String)) :
    Nat → List String → List String → Except Unit (List String)
  | 0, emitted, remaining =>
    if remaining.isEmpty then .ok emitted else .error ()
  | fuel + 1, emitted, remaining =>
    if remaining.isEmpty then .ok emitted
    else
      let ready := readyNodes g emitted remaining
      if ready.isEmpty then .error ()
      else topoLoop g fuel (emitted ++ ready)
        (remaining.filter fun n => !ready.contains n)

/-- `TopologicalSorter(graph).static_order()`, modelled from the
documented contract of Python's `graphlib`: a topological order of all
nodes, or `CycleError` when the graph is cyclic. -/
def static_order (g : List (String × List String)) :
    Except Unit (List String) :=
  topoLoop g (topoNodes g).length [] (topoNodes g)

/-- `iterate_package_ids_in_dependency_order` of `deps.py`. -/
def iterate_package_ids_in_dependency_order (packages : List PackageSpec) :
    Except Unit (List String) :=
  static_order (depsGraph packages)

/-- One dependency edge: `b` is a dependency (predecessor) of `a`. -/
def depStep (g : List (String × List String)) (a b : String) : Prop :=
  b ∈ predsOf g a

/-- The dependency graph contains a cycle: some node depends on itself
through one or more edges. -/
def hasDependencyCycle (g : List (String × List String)) : Prop :=
  ∃ n, Relation.TransGen (depStep g) n n

/-- `order.index(x)` as used by the spec's topological-correctness
property: the index of the first occurrence of `x` in `order` (the
list's length when absent). -/
def posIn : List String → String → Nat
  | [], _ => 0
  | b :: bs, a => if b = a then 0 else posIn bs a + 1

/-- The emitted list respects the dependency edges: every predecessor
of an emitted node is emitted strictly earlier. -/
def Resolved (g : List (String × List String)) (emitted : List String) : Prop :=
  ∀ n ∈ emitted, ∀ d ∈ predsOf g n,
    d ∈ emitted ∧ posIn emitted d < posIn emitted n

/-! ## Helper lemmas -/

theorem stringMk_data (s : String) : String.mk s.data = s := by
  cases s
  rfl

theorem leads_iff {p l : List Char} : leads p l = true ↔ ∃ t, l = p ++ t := by
  induction p generalizing l with
  | nil => simp [leads]
  | cons a as ih =>
    cases l with
    | nil => simp [leads]
    | cons b bs =>
      simp only [leads, Bool.and_eq_true, beq_iff_eq, ih, List.cons_append,
        List.cons.injEq]
      constructor
      · rintro ⟨rfl, t, rfl⟩
        exact ⟨t, rfl, rfl⟩
      · rintro ⟨t, rfl, rfl⟩
        exact ⟨rfl, t, rfl⟩

theorem leads_append_same (p q l : List Char) :
    leads (p ++ q) (p ++ l) = leads q l := by
  induction p with
  | nil => rfl
  | cons a as ih => simp [leads, ih]

theorem splitCharsOnDash_ne_nil (l : List Char) : splitCharsOnDash l ≠ [] := by
  cases l with
  | nil => simp [splitCharsOnDash]
  | cons c rest =>
    simp only [splitCharsOnDash]
    cases splitCharsOnDash rest with
    | nil => simp
    | cons h t =>
      by_cases hc : c = '-' <;> simp [hc]

theorem splitCharsOnDash_no_dash (xs : List Char) (h : '-' ∉ xs) :
    splitCharsOnDash xs = [xs] := by
  induction xs with
  | nil => rfl
  | cons c rest ih =>
    simp only [List.mem_cons, not_or] at h
    simp [splitCharsOnDash, ih h.2, show ¬c = '-' from fun hc => h.1 hc.symm]

theorem splitCharsOnDash_append (xs ys : List Char) (h : '-' ∉ xs) :
    splitCharsOnDash (xs ++ '-' :: ys) = xs :: splitCharsOnDash ys := by
  induction xs with
  | nil =>
    simp only [List.nil_append, splitCharsOnDash]
    cases hys : splitCharsOnDash ys with
    | nil => exact absurd hys (splitCharsOnDash_ne_nil ys)
    | cons h t => simp
  | cons c rest ih =>
    simp only [List.mem_cons, not_or] at h
    show splitCharsOnDash (c :: (rest ++ '-' :: ys)) = (c :: rest) :: splitCharsOnDash ys
    rw [splitCharsOnDash, ih h.2]
    simp [show ¬c = '-' from fun hc => h.1 hc.symm]

/-! ## C3 — bundle filename computation -/

/-- C3 counterexample: for the toolchain bundle on a Windows arm64
machine whose config is set, the os-arch-config component of the
filename is `machine.os_dash_arch` (`windows-arm64`), not
`machine.identifier` (`windows-arm64-mingw`) as the claim states for
every non-x86 combination. -/
theorem compute_bundle_parameters_identifier_counterexample :
    (compute_bundle_parameters .TOOLCHAIN ⟨"windows", "arm64", some "mingw", none⟩ "9").2
      = "toolchain-windows-arm64.tar.xz" ∧
    MachineSpec.identifier ⟨"windows", "arm64", some "mingw", none⟩
      = "windows-arm64-mingw" ∧
    (compute_bundle_parameters .TOOLCHAIN ⟨"windows", "arm64", some "mingw", none⟩ "9").2
      ≠ "toolchain-"
        ++ MachineSpec.identifier ⟨"windows", "arm64", some "mingw", none⟩
        ++ ".tar.xz" := by
  refine ⟨rfl, rfl, ?_⟩
  decide

/-- C3 (amended): `compute_bundle_parameters` yields filename
`toolchain-windows-x86.tar.xz` whenever the bundle is the toolchain,
`machine.os` is windows and `machine.arch` is x86 or x86_64; for the
toolchain bundle on a Windows machine with any other arch the
os-arch-config component equals `machine.os_dash_arch`; for every
other (bundle, machine) combination it equals `machine.identifier`. -/
theorem compute_bundle_parameters_filename_amended (b : Bundle)
    (m : MachineSpec) (v : String) :
    ((m.os = "windows" ∧ (m.arch = "x86" ∨ m.arch = "x86_64")) →
       (compute_bundle_parameters .TOOLCHAIN m v).2
         = "toolchain-windows-x86.tar.xz") ∧
    ((b = .TOOLCHAIN ∧ m.os = "windows" ∧ ¬(m.arch = "x86" ∨ m.arch = "x86_64")) →
       (compute_bundle_parameters b m v).2
         = b.lowerName ++ "-" ++ m.os_dash_arch ++ ".tar.xz") ∧
    (¬(b = .TOOLCHAIN ∧ m.os = "windows") →
       (compute_bundle_parameters b m v).2
         = b.lowerName ++ "-" ++ m.identifier ++ ".tar.xz") := by
  refine ⟨?_, ?_, ?_⟩
  · rintro ⟨hos, harch⟩
    simp [compute_bundle_parameters, hos, harch, Bundle.lowerName]
  · rintro ⟨hb, hos, harch⟩
    subst hb
    simp [compute_bundle_parameters, hos, harch]
  · intro h
    simp [compute_bundle_parameters, h]

/-- C3 witness: the Windows x86_64 toolchain collapse at a concrete
machine. -/
theorem compute_bundle_parameters_filename_amended_witness :
    (compute_bundle_parameters .TOOLCHAIN
        ⟨"windows", "x86_64", some "release", none⟩ "9").2
      = "toolchain-windows-x86.tar.xz" :=
  (compute_bundle_parameters_filename_amended .TOOLCHAIN
    ⟨"windows", "x86_64", some "release", none⟩ "9").1 ⟨rfl, Or.inr rfl⟩

/-! ## C5 — pointer size -/

/-- C5 counterexample: `arm64beilp32` starts with `arm64`, so the claim
predicts pointer size 8, but the code returns 4 for arm64 variants
ending in `ilp32`. -/
theorem pointer_size_counterexample :
    strStarts (MachineSpec.arch ⟨"linux", "arm64beilp32", none, none⟩) "arm64" = true ∧
    MachineSpec.pointer_size ⟨"linux", "arm64beilp32", none, none⟩ ≠ 8 := by
  refine ⟨rfl, ?_⟩
  decide

/-- C5 (amended): `pointer_size` is 8 exactly when the arch is
`x86_64` or `s390x`, or starts with `arm64` without ending in `ilp32`,
or starts with `mips64`; it is 4 otherwise. -/
theorem pointer_size_amended (m : MachineSpec) :
    m.pointer_size =
      if m.arch = "x86_64" ∨ m.arch = "s390x"
         ∨ (strStarts m.arch "arm64" = true ∧ strEnds m.arch "ilp32" = false)
         ∨ strStarts m.arch "mips64" = true
      then 8 else 4 := by
  unfold MachineSpec.pointer_size
  rcases h1 : strStarts m.arch "arm64" <;>
    rcases h2 : strEnds m.arch "ilp32" <;>
      rcases h3 : strStarts m.arch "mips64" <;>
        split_ifs <;> simp_all

/-! ## C6 — host adaptation -/

/-- C6 counterexample: with a Linux arm64 machine and a Windows x86_64
host, the claim ("host is Windows with arch x86_64 or x86 → adopt
host") predicts the host is returned, but the code checks the
*machine's* os and returns the machine unchanged. -/
theorem maybe_adapt_to_host_counterexample :
    MachineSpec.os ⟨"windows", "x86_64", none, none⟩ = "windows" ∧
    MachineSpec.maybe_adapt_to_host ⟨"linux", "arm64", none, none⟩
        ⟨"windows", "x86_64", none, none⟩
      = ⟨"linux", "arm64", none, none⟩ ∧
    (⟨"linux", "arm64", none, none⟩ : MachineSpec)
      ≠ ⟨"windows", "x86_64", none, none⟩ := by
  refine ⟨rfl, ?_, by decide⟩
  decide

/-- C6 (amended): `maybe_adapt_to_host` returns the host exactly when
the identifiers match and the host has a triplet, or the *machine's*
os is windows and the host arch is x86_64 or x86 or equals the
machine's arch; in every other case it returns the machine
unchanged. -/
theorem maybe_adapt_to_host_amended (m host : MachineSpec) :
    m.maybe_adapt_to_host host =
      if (m.identifier = host.identifier ∧ host.triplet ≠ none)
         ∨ (m.os = "windows"
            ∧ (host.arch = "x86_64" ∨ host.arch = "x86" ∨ m.arch = host.arch))
      then host else m := by
  unfold MachineSpec.maybe_adapt_to_host
  split_ifs <;> tauto

/-! ## C9 — for_machine of parsed dependencies -/

/-- C9: evaluating `parse_dependency` at a record without a
`for_machine` key yields `for_machine = None` — `v.get("for_machine")`
returns `None` and overrides the dataclass default `"host"` — so the
resulting field is not a member of {host, build} as the spec
requires. -/
theorem parse_dependency_for_machine_bug :
    (parse_dependency (.record "zlib" none none)).for_machine = none ∧
    ¬((parse_dependency (.record "zlib" none none)).for_machine = some "host"
      ∨ (parse_dependency (.record "zlib" none none)).for_machine = some "build") := by
  refine ⟨rfl, ?_⟩
  decide

/-! ## C10 — domain of MachineSpec.parse -/

/-- C10: `MachineSpec.parse` returns a value exactly when the raw
string splits on `-` into two or three components, or into four whose
first matches `TARGET_TRIPLET_ARCH_PATTERN`; one component (no dash),
a non-matching four-component string, and five or more components all
raise. -/
theorem parse_domain (raw : String) :
    (MachineSpec.parse raw).isSome =
      ((splitDash raw).length == 2 || (splitDash raw).length == 3
       || ((splitDash raw).length == 4
           && TARGET_TRIPLET_ARCH_PATTERN ((splitDash raw).headD ""))) := by
  unfold MachineSpec.parse
  rcases htoks : splitDash raw with _ | ⟨a, _ | ⟨b, _ | ⟨c, _ | ⟨d, rest⟩⟩⟩⟩
  · simp [parsePlain]
  · simp [parsePlain]
  · simp [parsePlain]
  · rcases hp : TARGET_TRIPLET_ARCH_PATTERN a <;>
      simp [parsePlain, hp]
  · rcases rest with _ | ⟨e, rest'⟩
    · rcases hp : TARGET_TRIPLET_ARCH_PATTERN a <;>
        simp [parsePlain, hp]
    · simp [parsePlain]

/-! ## C7 — identifier round-trip -/

theorem splitDash_three (o a c : String)
    (h1 : '-' ∉ o.data) (h2 : '-' ∉ a.data) (h3 : '-' ∉ c.data) :
    splitDash (joinDash [o, a, c]) = [o, a, c] := by
  show splitDash (o ++ "-" ++ (a ++ "-" ++ c)) = [o, a, c]
  unfold splitDash
  have hd : (o ++ "-" ++ (a ++ "-" ++ c)).data
      = o.data ++ '-' :: (a.data ++ '-' :: c.data) := by
    simp
  rw [hd, splitCharsOnDash_append _ _ h1, splitCharsOnDash_append _ _ h2,
    splitCharsOnDash_no_dash _ h3]
  simp [stringMk_data]

/-- C7 counterexample: the MachineSpec
`{os := "arm", arch := "linux", config := "gnueabihf"}` has its config
set, yet its identifier `arm-linux-gnueabihf` is re-parsed as a GNU
triplet (the os field matches the arch pattern), giving identifier
`linux-armhf` — the round-trip is not stable. -/
theorem parse_identifier_roundtrip_counterexample :
    MachineSpec.config ⟨"arm", "linux", some "gnueabihf", none⟩ = some "gnueabihf" ∧
    MachineSpec.identifier ⟨"arm", "linux", some "gnueabihf", none⟩
      = "arm-linux-gnueabihf" ∧
    (MachineSpec.parse
        (MachineSpec.identifier ⟨"arm", "linux", some "gnueabihf", none⟩)).map
        MachineSpec.identifier
      = some "linux-armhf" ∧
    ("linux-armhf" : String) ≠ "arm-linux-gnueabihf" := by
  refine ⟨rfl, rfl, rfl, ?_⟩
  decide

/-- C7 (amended): for every MachineSpec whose config is set, whose
os, arch and config contain no dash, and whose os does not match
`TARGET_TRIPLET_ARCH_PATTERN` (so the identifier cannot be mistaken
for a GNU triplet), parsing the canonical identifier round-trips to
the same identifier. -/
theorem parse_identifier_roundtrip_amended (m : MachineSpec) (c : String)
    (hc : m.config = some c)
    (h1 : '-' ∉ m.os.data) (h2 : '-' ∉ m.arch.data) (h3 : '-' ∉ c.data)
    (h4 : TARGET_TRIPLET_ARCH_PATTERN m.os = false) :
    (MachineSpec.parse m.identifier).map MachineSpec.identifier
      = some m.identifier := by
  have hid : m.identifier = joinDash [m.os, m.arch, c] := by
    unfold MachineSpec.identifier
    rw [hc]
    rfl
  have hsplit := splitDash_three m.os m.arch c h1 h2 h3
  unfold MachineSpec.parse
  rw [hid, hsplit]
  have hcond : ([m.os, m.arch, c] : List String).length = 3
      ∨ ([m.os, m.arch, c] : List String).length = 4 := Or.inl rfl
  rw [if_pos hcond]
  have hpat : ¬(TARGET_TRIPLET_ARCH_PATTERN
      (([m.os, m.arch, c] : List String).headD "") = true) := by
    simp [h4]
  rw [if_neg hpat]
  rfl

/-- C7 witness: the round-trip at `linux-arm64-musl`. -/
theorem parse_identifier_roundtrip_amended_witness :
    (MachineSpec.parse
        (MachineSpec.identifier ⟨"linux", "arm64", some "musl", none⟩)).map
        MachineSpec.identifier
      = some (MachineSpec.identifier ⟨"linux", "arm64", some "musl", none⟩) :=
  parse_identifier_roundtrip_amended ⟨"linux", "arm64", some "musl", none⟩
    "musl" rfl (by decide) (by decide) (by decide) (by decide)

/-! ## C8 — exe wrapper -/

/-- C8: `needs_exe_wrapper` is false exactly when the environment
grants `FRIDA_CAN_RUN_HOST_BINARIES=yes` or the machines have equal
identifiers (Python equality on MachineSpec); when a wrapper is needed
and `FRIDA_QEMU_SYSROOT` is set, the wrapper is
`[qemu_binary, "-L", sysroot]` for the located binary, the failure is
exactly a missing `qemu-<arch>` on PATH, and the looked-up flavour
applies the overrides armeabi/armhf→arm, armbe8→armeb,
arm64→aarch64. -/
theorem exe_wrapper_spec (machine build_machine : MachineSpec)
    (environ which : String → Option String) :
    (needs_exe_wrapper machine build_machine environ = false ↔
       environ "FRIDA_CAN_RUN_HOST_BINARIES" = some "yes"
       ∨ machine.identifier = build_machine.identifier) ∧
    (∀ sysroot, needs_exe_wrapper machine build_machine environ = true →
       environ "FRIDA_QEMU_SYSROOT" = some sysroot →
       (∀ qemu_binary, which (qemuFlavor machine) = some qemu_binary →
          find_exe_wrapper machine environ which
            = .ok (some [qemu_binary, "-L", sysroot])) ∧
       (find_exe_wrapper machine environ which = .error ()
          ↔ which (qemuFlavor machine) = none)) ∧
    (qemuFlavor machine = "qemu-" ++
       (if machine.arch = "armeabi" ∨ machine.arch = "armhf" then "arm"
        else if machine.arch = "armbe8" then "armeb"
        else if machine.arch = "arm64" then "aarch64"
        else machine.arch)) := by
  refine ⟨?_, ?_, ?_⟩
  · unfold needs_exe_wrapper machineEqPy
    cases henv : environ "FRIDA_CAN_RUN_HOST_BINARIES" with
    | none => simp [henv]
    | some s =>
      by_cases hs : s = "yes" <;> simp [henv, hs]
  · intro sysroot _ hsys
    constructor
    · intro qemu_binary hq
      unfold find_exe_wrapper
      rw [hsys, hq]
    · unfold find_exe_wrapper
      rw [hsys]
      cases hw : which (qemuFlavor machine) <;> simp [hw]
  · by_cases e1 : machine.arch = "armeabi"
    · simp [qemuFlavor, QEMU_ARCHS, List.lookup, e1]
    · by_cases e2 : machine.arch = "armhf"
      · simp [qemuFlavor, QEMU_ARCHS, List.lookup, e2]
      · by_cases e3 : machine.arch = "armbe8"
        · simp [qemuFlavor, QEMU_ARCHS, List.lookup, e3]
        · by_cases e4 : machine.arch = "arm64"
          · simp [qemuFlavor, QEMU_ARCHS, List.lookup, e4]
          · have b1 : (machine.arch == "armeabi") = false :=
              beq_eq_false_iff_ne.mpr e1
            have b2 : (machine.arch == "armhf") = false :=
              beq_eq_false_iff_ne.mpr e2
            have b3 : (machine.arch == "armbe8") = false :=
              beq_eq_false_iff_ne.mpr e3
            have b4 : (machine.arch == "arm64") = false :=
              beq_eq_false_iff_ne.mpr e4
            simp [qemuFlavor, QEMU_ARCHS, List.lookup, b1, b2, b3, b4,
              e1, e2, e3, e4]

/-- C8 witness: a cross Linux arm64 machine with a QEMU sysroot and
`qemu-aarch64` on PATH. -/
theorem exe_wrapper_spec_witness :
    find_exe_wrapper ⟨"linux", "arm64", none, none⟩
        (fun k => if k = "FRIDA_QEMU_SYSROOT" then some "/sysroot" else none)
        (fun q => if q = "qemu-aarch64" then some "/usr/bin/qemu-aarch64" else none)
      = .ok (some ["/usr/bin/qemu-aarch64", "-L", "/sysroot"]) :=
  ((exe_wrapper_spec ⟨"linux", "arm64", none, none⟩ ⟨"linux", "x86_64", none, none⟩
      (fun k => if k = "FRIDA_QEMU_SYSROOT" then some "/sysroot" else none)
      (fun q => if q = "qemu-aarch64" then some "/usr/bin/qemu-aarch64" else none)).2.1
    "/sysroot" rfl rfl).1 "/usr/bin/qemu-aarch64" rfl

/-! ## C1 — the version gate of sync -/

/-- C1: when `location` exists, `sync` returns `Pristine` with no
effects at all (in particular no network I/O, and the location's
contents untouched) exactly on a readable `VERSION.txt` whose stripped
contents equal the version; otherwise the location is deleted first,
the archive is extracted afterwards, and the result is `Modified`. -/
theorem sync_version_gate (version : String) (inp : SyncInput)
    (hloc : inp.locationExists = true) :
    ((∃ s, inp.versionTxt = some s ∧ pyStrip s = version) →
       (sync version inp).state = .PRISTINE ∧
       (sync version inp).events = [] ∧
       SyncEvent.downloadBundle ∉ (sync version inp).events ∧
       (sync version inp).final = none) ∧
    ((∀ s, inp.versionTxt = some s → pyStrip s ≠ version) →
       (sync version inp).state = .MODIFIED ∧
       SyncEvent.rmtreeLocation ∈ (sync version inp).events ∧
       SyncEvent.extractArchive ∈ (sync version inp).events ∧
       (sync version inp).events.indexOf SyncEvent.rmtreeLocation <
         (sync version inp).events.indexOf SyncEvent.extractArchive) := by
  constructor
  · rintro ⟨s, hs, hstrip⟩
    simp [sync, hloc, hs, hstrip]
  · intro hne
    cases hv : inp.versionTxt with
    | none =>
      cases hlb : inp.localBundleExists <;>
        simp [sync, hloc, hv, syncExtract, hlb] <;> decide
    | some s =>
      have hs : (pyStrip s == version) = false := by
        simp [hne s hv]
      cases hlb : inp.localBundleExists <;>
        simp [sync, hloc, hv, hs, syncExtract, hlb] <;> decide

/-- C1 witness: an up-to-date location (VERSION.txt strips to the
requested version) is left untouched and reported `Pristine`. -/
theorem sync_version_gate_witness :
    (sync "1.0" ⟨true, some " 1.0\n", false, [], "/loc"⟩).state = .PRISTINE ∧
    (sync "1.0" ⟨true, some " 1.0\n", false, [], "/loc"⟩).events = [] ∧
    SyncEvent.downloadBundle ∉ (sync "1.0" ⟨true, some " 1.0\n", false, [], "/loc"⟩).events ∧
    (sync "1.0" ⟨true, some " 1.0\n", false, [], "/loc"⟩).final = none :=
  (sync_version_gate "1.0" ⟨true, some " 1.0\n", false, [], "/loc"⟩ rfl).1
    ⟨" 1.0\n", rfl, by decide⟩

/-! ## C4 — template rewrite -/

theorem sync_final_processTemplates (version : String) (inp : SyncInput)
    (files : List (String × String))
    (h : (sync version inp).final = some files) :
    files = processTemplates inp.rawLocation inp.archiveFiles := by
  cases hl : inp.locationExists with
  | false =>
    simp [sync, hl, syncExtract] at h
    exact h.symm
  | true =>
    cases hv : inp.versionTxt with
    | none =>
      simp [sync, hl, hv, syncExtract] at h
      exact h.symm
    | some s =>
      cases hs : pyStrip s == version with
      | false =>
        simp [sync, hl, hv, hs, syncExtract] at h
        exact h.symm
      | true => simp [sync, hl, hv, hs] at h

/-- Stripping one `.frida.in` suffix from a name that does not carry a
doubled suffix leaves a name without the suffix. -/
theorem strip_suffix_no_more (n : String)
    (h1 : strEnds n ".frida.in" = true)
    (h2 : strEnds n ".frida.in.frida.in" = false) :
    strEnds (strDropLast n 9) ".frida.in" = false := by
  unfold strEnds at h1 h2 ⊢
  obtain ⟨t, ht⟩ := leads_iff.mp h1
  have hdata : n.data = t.reverse ++ (".frida.in" : String).data := by
    have := congrArg List.reverse ht
    simpa using this
  have hlen : (".frida.in" : String).data.length = 9 := by decide
  have htake : (strDropLast n 9).data = t.reverse := by
    unfold strDropLast
    rw [hdata]
    have : (t.reverse ++ (".frida.in" : String).data).length - 9
        = t.reverse.length := by
      simp [hlen]
    rw [this, List.take_left']
    rfl
  have hrev : (strDropLast n 9).data.reverse = t := by
    rw [htake, List.reverse_reverse]
  rw [hrev]
  have hdouble : (".frida.in.frida.in" : String).data.reverse
      = (".frida.in" : String).data.reverse ++ (".frida.in" : String).data.reverse := by
    decide
  rw [hdouble, ht, leads_append_same] at h2
  exact h2

/-- C4 counterexample: an archive containing a file named
`x.frida.in.frida.in` leaves a file named `x.frida.in` — a name with
the forbidden suffix — under the location after a successful
extracting sync. -/
theorem sync_template_rewrite_counterexample :
    (sync "1" ⟨false, none, false, [("x.frida.in.frida.in", "hello")], "/loc"⟩).final
      = some [("x.frida.in", "hello")] ∧
    strEnds "x.frida.in" ".frida.in" = true := by
  refine ⟨rfl, ?_⟩
  decide

/-- C4 (amended): after every sync that runs the extraction path,
provided no extracted filename carries a doubled `.frida.in.frida.in`
suffix, no file under the location has a name ending in `.frida.in`,
and every archive file with that suffix appears with the suffix
stripped and every occurrence of `@FRIDA_TOOLROOT@` replaced by the
POSIX form of the location. -/
theorem sync_template_rewrite_amended (version : String) (inp : SyncInput)
    (files : List (String × String))
    (hext : (sync version inp).final = some files)
    (hns : ∀ f ∈ inp.archiveFiles, strEnds f.1 ".frida.in.frida.in" = false) :
    (∀ f ∈ files, strEnds f.1 ".frida.in" = false) ∧
    (∀ f ∈ inp.archiveFiles, strEnds f.1 ".frida.in" = true →
       (strDropLast f.1 9, pyReplace f.2 "@FRIDA_TOOLROOT@" inp.rawLocation)
         ∈ files) := by
  have hfiles := sync_final_processTemplates version inp files hext
  subst hfiles
  constructor
  · intro f' hf'
    unfold processTemplates at hf'
    obtain ⟨f, hf, hgf⟩ := List.mem_map.mp hf'
    cases hc : strEnds f.1 ".frida.in" with
    | false =>
      rw [hc] at hgf
      simp at hgf
      rw [← hgf]
      exact hc
    | true =>
      rw [hc] at hgf
      simp at hgf
      rw [← hgf]
      exact strip_suffix_no_more f.1 hc (hns f hf)
  · intro f hf hends
    unfold processTemplates
    refine List.mem_map.mpr ⟨f, hf, ?_⟩
    rw [hends]
    simp

/-- C4 witness: a concrete archive with one template file and one
plain file. -/
theorem sync_template_rewrite_amended_witness :
    (∀ f ∈ (processTemplates "/loc"
        [("a.frida.in", "p @FRIDA_TOOLROOT@ q"), ("b.txt", "z")]),
       strEnds f.1 ".frida.in" = false) ∧
    (∀ f ∈ [(("a.frida.in" : String), ("p @FRIDA_TOOLROOT@ q" : String)),
            ("b.txt", "z")],
       strEnds f.1 ".frida.in" = true →
       (strDropLast f.1 9, pyReplace f.2 "@FRIDA_TOOLROOT@" "/loc")
         ∈ processTemplates "/loc"
             [("a.frida.in", "p @FRIDA_TOOLROOT@ q"), ("b.txt", "z")]) :=
  sync_template_rewrite_amended "1"
    ⟨false, none, true, [("a.frida.in", "p @FRIDA_TOOLROOT@ q"), ("b.txt", "z")], "/loc"⟩
    (processTemplates "/loc" [("a.frida.in", "p @FRIDA_TOOLROOT@ q"), ("b.txt", "z")])
    rfl (by decide)

/-! ## C2 — the topological resolver -/

theorem posIn_lt_length {l : List String} {a : String} (h : a ∈ l) :
    posIn l a < l.length := by
  induction l with
  | nil => cases h
  | cons b bs ih =>
    by_cases hb : b = a
    · simp [posIn, hb]
    · rcases List.mem_cons.mp h with h' | h'
      · exact absurd h'.symm hb
      · simpa [posIn, hb] using ih h'

theorem posIn_append_left {l₁ : List String} (l₂ : List String) {a : String}
    (h : a ∈ l₁) : posIn (l₁ ++ l₂) a = posIn l₁ a := by
  induction l₁ with
  | nil => cases h
  | cons b bs ih =>
    by_cases hb : b = a
    · simp [posIn, hb]
    · rcases List.mem_cons.mp h with h' | h'
      · exact absurd h'.symm hb
      · simp [posIn, hb, ih h']

theorem posIn_append_right {l₁ : List String} (l₂ : List String) {a : String}
    (h : a ∉ l₁) : posIn (l₁ ++ l₂) a = l₁.length + posIn l₂ a := by
  induction l₁ with
  | nil => simp [posIn]
  | cons b bs ih =>
    have hb : ¬b = a := fun hba => h (hba ▸ List.mem_cons_self b bs)
    have h' : a ∉ bs := fun ha => h (List.mem_cons_of_mem b ha)
    simp [posIn, hb, ih h']
    omega

theorem contains_eq_true_iff {l : List String} {a : String} :
    l.contains a = true ↔ a ∈ l := by
  simp [List.contains]

theorem mem_readyNodes {g : List (String × List String)}
    {emitted remaining : List String} {x : String} :
    x ∈ readyNodes g emitted remaining ↔
      x ∈ remaining ∧ ∀ d ∈ predsOf g x, d ∈ emitted := by
  simp [readyNodes, List.mem_filter, List.all_eq_true, List.contains]

theorem readyNodes_filter_perm (g : List (String × List String))
    (emitted remaining : List String) :
    List.Perm
      (readyNodes g emitted remaining
        ++ remaining.filter (fun n => !(readyNodes g emitted remaining).contains n))
      remaining := by
  have hcongr : remaining.filter (fun n => !(readyNodes g emitted remaining).contains n)
      = remaining.filter
          (fun n => !((predsOf g n).all fun d => emitted.contains d)) := by
    apply List.filter_congr
    intro x hx
    have : (readyNodes g emitted remaining).contains x
        = ((predsOf g x).all fun d => emitted.contains d) := by
      cases hp : (predsOf g x).all fun d => emitted.contains d with
      | true =>
        apply contains_eq_true_iff.mpr
        exact List.mem_filter.mpr ⟨hx, hp⟩
      | false =>
        cases hc : (readyNodes g emitted remaining).contains x with
        | true =>
          have := (List.mem_filter.mp (contains_eq_true_iff.mp hc)).2
          rw [hp] at this
          cases this
        | false => rfl
    rw [this]
  rw [hcongr]
  exact List.filter_append_perm _ remaining

theorem topoLoop_zero (g : List (String × List String))
    (emitted remaining : List String) :
    topoLoop g 0 emitted remaining =
      if remaining.isEmpty then .ok emitted else .error () := rfl

theorem topoLoop_succ (g : List (String × List String)) (fuel : Nat)
    (emitted remaining : List String) :
    topoLoop g (fuel + 1) emitted remaining =
      if remaining.isEmpty then .ok emitted
      else if (readyNodes g emitted remaining).isEmpty then .error ()
      else topoLoop g fuel (emitted ++ readyNodes g emitted remaining)
        (remaining.filter fun n =>
          !(readyNodes g emitted remaining).contains n) := rfl

theorem topoLoop_ok_invariant (g : List (String × List String)) :
    ∀ (fuel : Nat) (emitted remaining order : List String),
      (emitted ++ remaining).Nodup →
      Resolved g emitted →
      topoLoop g fuel emitted remaining = .ok order →
      Resolved g order ∧ (∀ x, x ∈ order ↔ x ∈ emitted ∨ x ∈ remaining) := by
  intro fuel
  induction fuel with
  | zero =>
    intro emitted remaining order hnd hres h
    rw [topoLoop_zero] at h
    by_cases hr : remaining.isEmpty
    · rw [if_pos hr] at h
      have he : emitted = order := by injection h
      subst he
      exact ⟨hres, by simp [List.isEmpty_iff.mp hr]⟩
    · rw [if_neg hr] at h
      cases h
  | succ fuel ih =>
    intro emitted remaining order hnd hres h
    rw [topoLoop_succ] at h
    by_cases hr : remaining.isEmpty
    · rw [if_pos hr] at h
      have he : emitted = order := by injection h
      subst he
      exact ⟨hres, by simp [List.isEmpty_iff.mp hr]⟩
    · rw [if_neg hr] at h
      by_cases hready : (readyNodes g emitted remaining).isEmpty
      · rw [if_pos hready] at h
        cases h
      · rw [if_neg hready] at h
        have hperm :
            List.Perm
              (emitted ++ (readyNodes g emitted remaining
                ++ remaining.filter
                    (fun n => !(readyNodes g emitted remaining).contains n)))
              (emitted ++ remaining) :=
          List.Perm.append_left emitted (readyNodes_filter_perm g emitted remaining)
        have hnd' : ((emitted ++ readyNodes g emitted remaining)
            ++ remaining.filter
                (fun n => !(readyNodes g emitted remaining).contains n)).Nodup := by
          rw [List.append_assoc]
          exact hperm.nodup_iff.mpr hnd
        have hdisj := (List.nodup_append.mp hnd).2.2
        have hres' : Resolved g (emitted ++ readyNodes g emitted remaining) := by
          intro n hn d hd
          rcases List.mem_append.mp hn with hne | hnr
          · obtain ⟨hde, hlt⟩ := hres n hne d hd
            refine ⟨List.mem_append_left _ hde, ?_⟩
            rw [posIn_append_left _ hde, posIn_append_left _ hne]
            exact hlt
          · have hnmem := mem_readyNodes.mp hnr
            have hde : d ∈ emitted := hnmem.2 d hd
            have hnne : n ∉ emitted := fun hne => hdisj hne hnmem.1
            refine ⟨List.mem_append_left _ hde, ?_⟩
            rw [posIn_append_left _ hde, posIn_append_right _ hnne]
            have := posIn_lt_length hde
            omega
        obtain ⟨hresO, hmemO⟩ := ih _ _ order hnd' hres' h
        refine ⟨hresO, ?_⟩
        intro x
        rw [hmemO x]
        have hre := hperm.mem_iff (a := x)
        simp only [List.mem_append] at hre ⊢
        tauto

theorem topoLoop_stuck_of_closed (g : List (String × List String))
    (C : String → Prop) (n₀ : String) (hn₀ : C n₀)
    (hsucc : ∀ m, C m → ∃ d, C d ∧ d ∈ predsOf g m) :
    ∀ (fuel : Nat) (emitted remaining : List String),
      (∀ m, C m → m ∈ remaining ∧ m ∉ emitted) →
      topoLoop g fuel emitted remaining = .error () := by
  intro fuel
  induction fuel with
  | zero =>
    intro emitted remaining hinv
    rw [topoLoop_zero]
    have hne : remaining ≠ [] := by
      intro he
      have := (hinv n₀ hn₀).1
      rw [he] at this
      cases this
    rw [if_neg (by simpa [List.isEmpty_iff] using hne)]
  | succ fuel ih =>
    intro emitted remaining hinv
    rw [topoLoop_succ]
    have hne : remaining ≠ [] := by
      intro he
      have := (hinv n₀ hn₀).1
      rw [he] at this
      cases this
    rw [if_neg (by simpa [List.isEmpty_iff] using hne)]
    have hnotready : ∀ m, C m → m ∉ readyNodes g emitted remaining := by
      intro m hm hmem
      obtain ⟨d, hCd, hdp⟩ := hsucc m hm
      exact (hinv d hCd).2 ((mem_readyNodes.mp hmem).2 d hdp)
    by_cases hready : (readyNodes g emitted remaining).isEmpty
    · rw [if_pos hready]
    · rw [if_neg hready]
      apply ih
      intro m hm
      constructor
      · apply List.mem_filter.mpr
        refine ⟨(hinv m hm).1, ?_⟩
        have hnm : m ∉ readyNodes g emitted remaining := hnotready m hm
        simp [List.contains, hnm]
      · intro hmem
        rcases List.mem_append.mp hmem with h1 | h2
        · exact (hinv m hm).2 h1
        · exact hnotready m hm h2

theorem mem_topoNodes_of_pred {g : List (String × List String)} {d a : String}
    (h : d ∈ predsOf g a) : d ∈ topoNodes g := by
  unfold predsOf dictGet at h
  cases hf : List.find? (fun e => e.1 == a) g.reverse with
  | none =>
    rw [hf] at h
    simp at h
  | some e =>
    rw [hf] at h
    simp only [Option.map_some', Option.getD_some] at h
    have he : e ∈ g := List.mem_reverse.mp (List.mem_of_find?_eq_some hf)
    unfold topoNodes
    rw [List.mem_dedup]
    apply List.mem_append_right
    exact List.mem_flatten.mpr ⟨e.2, List.mem_map_of_mem _ he, h⟩

theorem cycle_of_successors (g : List (String × List String))
    (s : List String)
    (hstep : ∀ m ∈ s, ∃ d, d ∈ predsOf g m ∧ d ∈ s)
    (hne : s ≠ []) :
    hasDependencyCycle g := by
  classical
  obtain ⟨a₀, ha₀⟩ := List.exists_mem_of_ne_nil s hne
  have hf : ∀ m : {x // x ∈ s.toFinset},
      ∃ d : {x // x ∈ s.toFinset}, (d : String) ∈ predsOf g (m : String) := by
    rintro ⟨m, hm⟩
    obtain ⟨d, hd1, hd2⟩ := hstep m (List.mem_toFinset.mp hm)
    exact ⟨⟨d, List.mem_toFinset.mpr hd2⟩, hd1⟩
  choose f hfspec using hf
  have hchain : ∀ (x : {x // x ∈ s.toFinset}) (k : Nat), 1 ≤ k →
      Relation.TransGen (depStep g) (x : String) ((f^[k] x : {x // x ∈ s.toFinset}) : String) := by
    intro x k
    induction k with
    | zero => omega
    | succ k ihk =>
      intro _
      by_cases hk : 1 ≤ k
      · rw [Function.iterate_succ_apply']
        exact (ihk hk).tail (hfspec _)
      · have hk0 : k = 0 := by omega
        subst hk0
        exact Relation.TransGen.single (hfspec x)
  have key : ∀ i j : Nat, i < j →
      f^[i] ⟨a₀, List.mem_toFinset.mpr ha₀⟩ = f^[j] ⟨a₀, List.mem_toFinset.mpr ha₀⟩ →
      hasDependencyCycle g := by
    intro i j hlt hu
    have hiter : f^[j - i] (f^[i] ⟨a₀, List.mem_toFinset.mpr ha₀⟩)
        = f^[i] ⟨a₀, List.mem_toFinset.mpr ha₀⟩ := by
      rw [← Function.iterate_add_apply, (by omega : j - i + i = j)]
      exact hu.symm
    have htg := hchain (f^[i] ⟨a₀, List.mem_toFinset.mpr ha₀⟩) (j - i) (by omega)
    rw [hiter] at htg
    exact ⟨_, htg⟩
  obtain ⟨i, j, hij, hiju⟩ :=
    Finite.exists_ne_map_eq_of_infinite
      (fun k : Nat => f^[k] ⟨a₀, List.mem_toFinset.mpr ha₀⟩)
  rcases Nat.lt_or_ge i j with hlt | hge
  · exact key i j hlt hiju
  · have hlt : j < i := by omega
    exact key j i hlt hiju.symm

theorem topoLoop_error_cycle (g : List (String × List String)) :
    ∀ (fuel : Nat) (emitted remaining : List String),
      remaining.length ≤ fuel →
      (∀ x ∈ remaining, ∀ d ∈ predsOf g x, d ∈ emitted ∨ d ∈ remaining) →
      topoLoop g fuel emitted remaining = .error () →
      hasDependencyCycle g := by
  intro fuel
  induction fuel with
  | zero =>
    intro emitted remaining hlen hinv h
    have : remaining = [] := List.eq_nil_of_length_eq_zero (by omega)
    rw [topoLoop_zero, this] at h
    cases h
  | succ fuel ih =>
    intro emitted remaining hlen hinv h
    rw [topoLoop_succ] at h
    by_cases hr : remaining.isEmpty
    · rw [if_pos hr] at h
      cases h
    · rw [if_neg hr] at h
      by_cases hready : (readyNodes g emitted remaining).isEmpty
      · refine cycle_of_successors g remaining ?_ ?_
        · intro m hm
          have hmr : m ∉ readyNodes g emitted remaining := by
            rw [List.isEmpty_iff.mp hready]
            simp
          have : ¬(m ∈ remaining ∧ ∀ d ∈ predsOf g m, d ∈ emitted) :=
            fun hc => hmr (mem_readyNodes.mpr hc)
          push_neg at this
          obtain ⟨d, hd, hde⟩ := this hm
          rcases hinv m hm d hd with h1 | h2
          · exact absurd h1 hde
          · exact ⟨d, hd, h2⟩
        · exact fun he => hr (by simp [he])
      · rw [if_neg hready] at h
        have hperm := readyNodes_filter_perm g emitted remaining
        have hlenperm := hperm.length_eq
        rw [List.length_append] at hlenperm
        have hreadylen : 1 ≤ (readyNodes g emitted remaining).length := by
          rcases hrn : readyNodes g emitted remaining with _ | ⟨y, ys⟩
          · rw [hrn] at hready
            simp at hready
          · simp
        refine ih _ _ (by omega) ?_ h
        intro x hx d hd
        have hxr : x ∈ remaining := (List.mem_filter.mp hx).1
        rcases hinv x hxr d hd with h1 | h2
        · exact Or.inl (List.mem_append_left _ h1)
        · by_cases hdr : d ∈ readyNodes g emitted remaining
          · exact Or.inl (List.mem_append_right _ hdr)
          · refine Or.inr (List.mem_filter.mpr ⟨h2, ?_⟩)
            simp [List.contains, hdr]

theorem static_order_ok_resolved (g : List (String × List String))
    (order : List String) (h : static_order g = .ok order) :
    Resolved g order ∧ ∀ x, x ∈ order ↔ x ∈ topoNodes g := by
  have hnd : (([] : List String) ++ topoNodes g).Nodup := by
    simpa using List.nodup_dedup _
  have hres0 : Resolved g [] := by
    intro n hn
    cases hn
  obtain ⟨h1, h2⟩ := topoLoop_ok_invariant g _ [] (topoNodes g) order hnd hres0 h
  refine ⟨h1, fun x => ?_⟩
  rw [h2 x]
  simp

theorem static_order_error_of_cycle (g : List (String × List String))
    (h : hasDependencyCycle g) : static_order g = .error () := by
  obtain ⟨n, htg⟩ := h
  apply topoLoop_stuck_of_closed g
    (fun m => Relation.TransGen (depStep g) n m ∧ Relation.TransGen (depStep g) m n)
    n ⟨htg, htg⟩
  · rintro m ⟨hnm, hmn⟩
    obtain ⟨b, hmb, hbn⟩ := Relation.TransGen.head'_iff.mp hmn
    refine ⟨b, ⟨hnm.tail hmb, ?_⟩, hmb⟩
    rcases Relation.reflTransGen_iff_eq_or_transGen.mp hbn with heq | htg'
    · subst heq
      exact htg
    · exact htg'
  · rintro m ⟨hnm, _⟩
    obtain ⟨b, _, hbm⟩ := Relation.TransGen.tail'_iff.mp hnm
    exact ⟨mem_topoNodes_of_pred hbm, List.not_mem_nil m⟩

theorem static_order_cycle_of_error (g : List (String × List String))
    (h : static_order g = .error ()) : hasDependencyCycle g := by
  refine topoLoop_error_cycle g _ [] (topoNodes g) (le_refl _) ?_ h
  intro x _ d hd
  exact Or.inr (mem_topoNodes_of_pred hd)

theorem keys_depsGraph (packages : List PackageSpec) :
    (depsGraph packages).map Prod.fst = packages.map PackageSpec.identifier := by
  simp [depsGraph]

theorem dictGet_depsGraph (packages : List PackageSpec)
    (hnodup : (packages.map PackageSpec.identifier).Nodup) :
    ∀ p ∈ packages, dictGet (depsGraph packages) p.identifier
      = some (p.dependencies.map DependencySpec.identifier) := by
  induction packages with
  | nil =>
    intro p hp
    cases hp
  | cons q qs ih =>
    have hqnot : q.identifier ∉ qs.map PackageSpec.identifier :=
      (List.nodup_cons.mp (by simpa using hnodup)).1
    have hnodup' : (qs.map PackageSpec.identifier).Nodup :=
      (List.nodup_cons.mp (by simpa using hnodup)).2
    intro p hp
    rcases List.mem_cons.mp hp with rfl | hp'
    · show dictGet ((p.identifier, p.dependencies.map DependencySpec.identifier)
          :: depsGraph qs) p.identifier = _
      unfold dictGet
      rw [List.reverse_cons, List.find?_append]
      have hnone : List.find? (fun e => e.1 == p.identifier)
          (depsGraph qs).reverse = none := by
        rw [List.find?_eq_none]
        intro e he hbeq
        have hk : e.1 ∈ (depsGraph qs).map Prod.fst :=
          List.mem_map_of_mem _ (List.mem_reverse.mp he)
        rw [keys_depsGraph] at hk
        rw [eq_of_beq hbeq] at hk
        exact hqnot hk
      rw [hnone]
      simp [List.find?]
    · have hne : ¬(q.identifier == p.identifier) = true := by
        intro hbeq
        exact hqnot ((eq_of_beq hbeq) ▸ List.mem_map_of_mem _ hp')
      have hih := ih hnodup' p hp'
      show dictGet ((q.identifier, q.dependencies.map DependencySpec.identifier)
          :: depsGraph qs) p.identifier = _
      unfold dictGet at hih ⊢
      rw [List.reverse_cons, List.find?_append]
      cases hf : List.find? (fun e => e.1 == p.identifier) (depsGraph qs).reverse with
      | none =>
        rw [hf] at hih
        simp at hih
      | some e =>
        rw [hf] at hih
        rw [Option.or]
        exact hih

theorem predsOf_depsGraph (packages : List PackageSpec)
    (hnodup : (packages.map PackageSpec.identifier).Nodup)
    (p : PackageSpec) (hp : p ∈ packages) :
    predsOf (depsGraph packages) p.identifier
      = p.dependencies.map DependencySpec.identifier := by
  unfold predsOf
  rw [dictGet_depsGraph packages hnodup p hp]
  rfl

/-- C2: for every package list with pairwise-distinct identifiers
whose dependency graph is acyclic, the resolver returns an order in
which every dependency strictly precedes its dependents
(`posIn order d.identifier < posIn order p.identifier`); when the
graph contains a cycle it fails with the cycle error (modelled
`.error ()`, the `CycleError` raised by `graphlib`). -/
theorem iterate_package_ids_in_dependency_order_correct
    (packages : List PackageSpec)
    (hnodup : (packages.map PackageSpec.identifier).Nodup) :
    (¬hasDependencyCycle (depsGraph packages) →
       ∃ order, iterate_package_ids_in_dependency_order packages = .ok order ∧
         ∀ p ∈ packages, ∀ dep ∈ p.dependencies,
           posIn order dep.identifier < posIn order p.identifier) ∧
    (hasDependencyCycle (depsGraph packages) →
       iterate_package_ids_in_dependency_order packages = .error ()) := by
  constructor
  · intro hacyc
    cases hres : iterate_package_ids_in_dependency_order packages with
    | error e =>
      cases e
      exact absurd (static_order_cycle_of_error _ hres) hacyc
    | ok order =>
      refine ⟨order, rfl, ?_⟩
      obtain ⟨hresd, hmem⟩ := static_order_ok_resolved _ order hres
      intro p hp dep hdep
      have hpred : dep.identifier ∈ predsOf (depsGraph packages) p.identifier := by
        rw [predsOf_depsGraph packages hnodup p hp]
        exact List.mem_map_of_mem _ hdep
      have hpid : p.identifier ∈ order := by
        rw [hmem]
        unfold topoNodes
        rw [List.mem_dedup]
        apply List.mem_append_left
        rw [keys_depsGraph]
        exact List.mem_map_of_mem _ hp
      exact (hresd p.identifier hpid dep.identifier hpred).2
  · intro hcyc
    exact static_order_error_of_cycle _ hcyc

/-- C2 witness: a self-dependent package is rejected with the cycle
error. -/
theorem iterate_package_ids_in_dependency_order_correct_witness :
    iterate_package_ids_in_dependency_order
        [⟨"a", "", "", "", [], [⟨"a", some "host", none⟩], none, none⟩]
      = .error () :=
  (iterate_package_ids_in_dependency_order_correct
      [⟨"a", "", "", "", [], [⟨"a", some "host", none⟩], none, none⟩]
      (by decide)).2
    ⟨"a", Relation.TransGen.single
      (show ("a" : String) ∈ predsOf
          (depsGraph [⟨"a", "", "", "", [], [⟨"a", some "host", none⟩], none, none⟩])
          "a" by decide)⟩
